import Mathlib

/-!
# go-updater: version resolution, metadata extraction, update and orchestration

A shallow embedding of `checker.go`, `updater.go` and the orchestration part of `main.go`.

* Go strings are modelled as lists of Unicode code points (`GoString`).
* External processes, the file system, the JSON decoder and the platform are collected in
  an environment `Env`; every external action a function performs is recorded in a trace.
* Go's `int` is taken to be 64 bits wide.
-/

namespace GoUpdater

/-! ## Definitions -/

/-- Go strings, as lists of Unicode code points. -/
abbrev GoString := List Char

/-- The `Tool` struct of `checker.go`. -/
structure Tool where
  Name : GoString
  Path : GoString
  PackagePath : GoString
  ModulePath : GoString
  CurrentVersion : GoString
  LatestVersion : GoString
  IsUpdatable : Bool
deriving DecidableEq

/-- Result of `os.Remove`, as far as `UpdateTool` distinguishes it. -/
inductive RemoveResult where
  | ok
  | notExist
  | otherError
deriving DecidableEq

/-- The external collaborators of the program. -/
structure Env where
  /-- Standard output of `go version -m <path>`, `none` when the command fails. -/
  goVersionM : GoString → Option GoString
  /-- Whether `go list -m <ref>` exits successfully. -/
  goListM : GoString → Bool
  /-- Standard output of `go list -m -u -json <ref>`, `none` when the command fails. -/
  goListMUJson : GoString → Option GoString
  /-- The `Version` field after `json.Unmarshal` into `modInfo`, `none` on a decoding error. -/
  jsonUnmarshalVersion : GoString → Option GoString
  /-- Whether `go install <ref>` exits successfully. -/
  goInstall : GoString → Bool
  /-- Outcome of `os.Remove <path>`. -/
  osRemove : GoString → RemoveResult
  /-- Whether `runtime.GOOS == "windows"`. -/
  isWindows : Bool
  /-- The function `filepath.Base` of the platform. -/
  filepathBase : GoString → GoString
  /-- The function `unicode.ToLower`. -/
  unicodeToLower : Char → Char

/-- External actions, in the order they are performed. -/
inductive Cmd where
  | goListM (ref : GoString)
  | goListMUJson (ref : GoString)
  | goInstall (ref : GoString)
  | osRemove (path : GoString)
deriving DecidableEq

/-! ### Library functions used by the source -/

/-- ASCII decimal digit, the class `\d` of Go regular expressions. -/
def isDigit (c : Char) : Bool := 48 ≤ c.toNat && c.toNat ≤ 57

/-- The class `[2-9]`. -/
def isDigit2to9 (c : Char) : Bool := 50 ≤ c.toNat && c.toNat ≤ 57

/-- The character matched by `.` (no `s` flag): anything but a line feed. -/
def isDot (c : Char) : Bool := c.toNat != 10

/-- `regexp.MustCompile("^(.*)/v([2-9]\\d*)$").FindStringSubmatch`: the empty list when
the text does not match, otherwise the whole match and the two groups.  The second group
is the maximal run of digits at the end of the text, so the split is unique. -/
def reFindStringSubmatch (s : GoString) : List GoString :=
  let r := s.reverse
  let num := (r.takeWhile isDigit).reverse
  match r.dropWhile isDigit with
  | 'v' :: '/' :: baseRev =>
    match num with
    | d :: _ =>
      if isDigit2to9 d && baseRev.all isDot then [s, baseRev.reverse, num] else []
    | [] => []
  | _ => []

/-- Largest value of a 64-bit `int`. -/
def maxInt : Int := 2 ^ 63 - 1

/-- Smallest value of a 64-bit `int`. -/
def minInt : Int := -(2 ^ 63)

/-- Two's complement wrap-around of 64-bit `int` arithmetic. -/
def wrapInt (i : Int) : Int := (i + 2 ^ 63) % 2 ^ 64 - 2 ^ 63

/-- Value of a run of decimal digits. -/
def parseDigits (ds : GoString) : Nat :=
  ds.foldl (fun acc c => acc * 10 + (c.toNat - 48)) 0

/-- The value part of `strconv.Atoi` (its error is discarded by the caller): an optional
sign followed by decimal digits; `0` on a syntax error, the nearest bound on a range
error. -/
def strconvAtoi (s : GoString) : Int :=
  let digitsOk (ds : GoString) : Bool := !ds.isEmpty && ds.all isDigit
  match s with
  | '-' :: ds =>
    if digitsOk ds then
      (if (parseDigits ds : Int) > 2 ^ 63 then minInt else -(parseDigits ds : Int))
    else 0
  | '+' :: ds =>
    if digitsOk ds then
      (if (parseDigits ds : Int) > maxInt then maxInt else (parseDigits ds : Int))
    else 0
  | ds =>
    if digitsOk ds then
      (if (parseDigits ds : Int) > maxInt then maxInt else (parseDigits ds : Int))
    else 0

/-- Decimal digits of a natural number, most significant first (`fuel` bounds the
number of digits). -/
def natDigits : Nat → Nat → GoString
  | 0, _ => []
  | fuel + 1, n =>
    if n < 10 then [Char.ofNat (48 + n)]
    else natDigits fuel (n / 10) ++ [Char.ofNat (48 + n % 10)]

/-- Decimal representation of a natural number. -/
def formatNat (n : Nat) : GoString := natDigits (n + 1) n

/-- The verb `%d` of `fmt.Sprintf`. -/
def formatInt : Int → GoString
  | Int.ofNat n => formatNat n
  | Int.negSucc n => '-' :: formatNat (n + 1)

/-- `strings.HasPrefix`. -/
def stringsHasPrefix (s pre : GoString) : Bool := pre.isPrefixOf s

/-- `strings.Replace(s, old, new, 1)`: the leftmost occurrence of `old` is replaced. -/
def stringsReplace1 (s old new : GoString) : GoString :=
  if old.isPrefixOf s then new ++ s.drop old.length
  else
    match s with
    | [] => []
    | c :: rest => c :: stringsReplace1 rest old new

/-! ### `checker.go`: `CheckForUpdate` -/

/-- The two failures `CheckForUpdate` reports. -/
inductive CheckError where
  | queryFailed
  | parseFailed
deriving DecidableEq

/-- What a call of `CheckForUpdate` leaves behind: the returned error, the descriptor
after the call and the external commands that were run. -/
structure CheckResult where
  err : Option CheckError
  tool : Tool
  trace : List Cmd
deriving DecidableEq

/-- The suffix `@latest`. -/
def atLatest : GoString := "@latest".toList

/-- Lines 89-107 of `checker.go`: the next-major probe.  Returns `pathToQuery` (empty
when the probe fails) and the probe command that was run. -/
def probeNextMajor (env : Env) (tool : Tool) : GoString × List Cmd :=
  match reFindStringSubmatch tool.ModulePath with
  | [_, basePath, num] =>
    let currentVersionNum := strconvAtoi num
    let nextMajorPath := basePath ++ "/v".toList ++ formatInt (wrapInt (currentVersionNum + 1))
    if env.goListM (nextMajorPath ++ atLatest) then
      (nextMajorPath, [Cmd.goListM (nextMajorPath ++ atLatest)])
    else ([], [Cmd.goListM (nextMajorPath ++ atLatest)])
  | _ =>
    let nextMajorPath := tool.ModulePath ++ "/v2".toList
    if env.goListM (nextMajorPath ++ atLatest) then
      (nextMajorPath, [Cmd.goListM (nextMajorPath ++ atLatest)])
    else ([], [Cmd.goListM (nextMajorPath ++ atLatest)])

/-- Lines 109-120 of `checker.go`: fall back to the module path, or rewrite the package
path.  Returns the final `pathToQuery` and the descriptor. -/
def resolveQueryPath (tool : Tool) (pathToQuery : GoString) : GoString × Tool :=
  if pathToQuery = [] then (tool.ModulePath, tool)
  else if stringsHasPrefix tool.PackagePath tool.ModulePath then
    (pathToQuery,
      { tool with PackagePath := stringsReplace1 tool.PackagePath tool.ModulePath pathToQuery })
  else (pathToQuery, tool)

/-- `CheckForUpdate` on a descriptor (`main` never passes a nil pointer). -/
def CheckForUpdate (env : Env) (tool : Tool) : CheckResult :=
  if tool.ModulePath = [] then ⟨none, tool, []⟩
  else
    let (pathToQuery0, probes) := probeNextMajor env tool
    let (pathToQuery, tool1) := resolveQueryPath tool pathToQuery0
    let trace := probes ++ [Cmd.goListMUJson (pathToQuery ++ atLatest)]
    match env.goListMUJson (pathToQuery ++ atLatest) with
    | none => ⟨some CheckError.queryFailed, tool1, trace⟩
    | some out =>
      match env.jsonUnmarshalVersion out with
      | none => ⟨some CheckError.parseFailed, tool1, trace⟩
      | some version =>
        if version ≠ [] ∧ tool1.CurrentVersion ≠ version then
          ⟨none, { tool1 with LatestVersion := version, IsUpdatable := true }, trace⟩
        else ⟨none, tool1, trace⟩

/-! ### `checker.go`: `GetToolInfo` -/

/-- `unicode.IsSpace`: the code points with the property `White_Space`. -/
def isSpace (c : Char) : Bool :=
  let n := c.toNat
  (9 ≤ n && n ≤ 13) || n == 32 || n == 0x85 || n == 0xA0 || n == 0x1680 ||
    (0x2000 ≤ n && n ≤ 0x200A) || n == 0x2028 || n == 0x2029 || n == 0x202F ||
    n == 0x205F || n == 0x3000

/-- `strings.TrimSpace`. -/
def stringsTrimSpace (s : GoString) : GoString :=
  ((s.dropWhile isSpace).reverse.dropWhile isSpace).reverse

/-- `strings.Split(s, "\n")`: one more piece than there are line feeds. -/
def stringsSplitLF : GoString → List GoString
  | [] => [[]]
  | c :: rest =>
    if c.toNat = 10 then [] :: stringsSplitLF rest
    else
      match stringsSplitLF rest with
      | [] => [[c]]
      | l :: ls => (c :: l) :: ls

/-- Worker of `strings.Fields`; `cur` is the field being read, reversed. -/
def fieldsAux : GoString → GoString → List GoString
  | [], cur => if cur = [] then [] else [cur.reverse]
  | c :: rest, cur =>
    if isSpace c then
      (if cur = [] then fieldsAux rest [] else cur.reverse :: fieldsAux rest [])
    else fieldsAux rest (c :: cur)

/-- `strings.Fields`: the maximal runs of characters that are not white space. -/
def stringsFields (s : GoString) : List GoString := fieldsAux s []

/-- A run-time panic of the Go program. -/
inductive Panic where
  | indexOutOfRange
deriving DecidableEq

deriving instance DecidableEq for Except

/-- The slice expression `xs[i:]`, which panics when `i > len(xs)`. -/
def sliceFrom {α : Type} (xs : List α) (i : Nat) : Except Panic (List α) :=
  if i ≤ xs.length then Except.ok (xs.drop i) else Except.error Panic.indexOutOfRange

/-- The index expression `xs[i]`, which panics when `i ≥ len(xs)`. -/
def indexAt {α : Type} (xs : List α) (i : Nat) : Except Panic α :=
  match xs.get? i with
  | some x => Except.ok x
  | none => Except.error Panic.indexOutOfRange

/-- The three variables the loop of `GetToolInfo` assigns. -/
structure ScanState where
  pkgPath : GoString
  modPath : GoString
  modVersion : GoString
deriving DecidableEq

/-- One iteration of the loop of `GetToolInfo` (lines 50-61). -/
def scanLine (st : ScanState) (line : GoString) : Except Panic ScanState :=
  let parts := stringsFields line
  if parts.length ≥ 2 then
    match indexAt parts 0 with
    | Except.error e => Except.error e
    | Except.ok tag =>
      if tag = "path".toList then
        match indexAt parts 1 with
        | Except.error e => Except.error e
        | Except.ok v => Except.ok { st with pkgPath := v }
      else if tag = "mod".toList then
        match indexAt parts 1 with
        | Except.error e => Except.error e
        | Except.ok v =>
          if parts.length ≥ 3 then
            match indexAt parts 2 with
            | Except.error e => Except.error e
            | Except.ok w => Except.ok { st with modPath := v, modVersion := w }
          else Except.ok { st with modPath := v }
      else Except.ok st
  else Except.ok st

/-- The loop of `GetToolInfo` over the lines. -/
def scanLines : ScanState → List GoString → Except Panic ScanState
  | st, [] => Except.ok st
  | st, line :: rest =>
    match scanLine st line with
    | Except.error e => Except.error e
    | Except.ok st1 => scanLines st1 rest

/-- `GetToolInfo`: `Except.ok none` is the nil result. -/
def GetToolInfo (env : Env) (execPath : GoString) : Except Panic (Option Tool) :=
  match env.goVersionM execPath with
  | none => Except.ok none
  | some output =>
    let lines := stringsSplitLF (stringsTrimSpace output)
    match sliceFrom lines 1 with
    | Except.error e => Except.error e
    | Except.ok body =>
      match scanLines ⟨[], [], []⟩ body with
      | Except.error e => Except.error e
      | Except.ok st =>
        if st.pkgPath = [] ∨ st.modPath = [] then Except.ok none
        else
          Except.ok (some
            { Name := env.filepathBase execPath
              Path := execPath
              PackagePath := st.pkgPath
              ModulePath := st.modPath
              CurrentVersion := st.modVersion
              LatestVersion := []
              IsUpdatable := false })

/-! ### `updater.go`: `UpdateTool` -/

/-- `strings.TrimSuffix`. -/
def stringsTrimSuffix (s suffix : GoString) : GoString :=
  if suffix.isSuffixOf s then s.take (s.length - suffix.length) else s

/-- The two failures `UpdateTool` reports. -/
inductive UpdateError where
  | installFailed
  | removeFailed
deriving DecidableEq

/-- The returned error of `UpdateTool` and the external actions it performed. -/
structure UpdateResult where
  err : Option UpdateError
  trace : List Cmd
deriving DecidableEq

/-- The executable suffix `.exe`. -/
def exeSuffix : GoString := ".exe".toList

/-- The name compared with the base of the package path (lines 37-41). -/
def toolBase (env : Env) (tool : Tool) : GoString :=
  if env.isWindows then stringsTrimSuffix (env.filepathBase tool.Path) exeSuffix
  else env.filepathBase tool.Path

/-- `UpdateTool` on a descriptor (`main` never passes a nil pointer); progress messages
are not recorded. -/
def UpdateTool (env : Env) (tool : Tool) : UpdateResult :=
  if !tool.IsUpdatable then ⟨none, []⟩
  else
    let install := Cmd.goInstall (tool.PackagePath ++ atLatest)
    if !env.goInstall (tool.PackagePath ++ atLatest) then
      ⟨some UpdateError.installFailed, [install]⟩
    else
      let packageBase := env.filepathBase tool.PackagePath
      if packageBase ≠ toolBase env tool then
        match env.osRemove tool.Path with
        | RemoveResult.ok => ⟨none, [install, Cmd.osRemove tool.Path]⟩
        | RemoveResult.notExist => ⟨none, [install, Cmd.osRemove tool.Path]⟩
        | RemoveResult.otherError =>
          ⟨some UpdateError.removeFailed, [install, Cmd.osRemove tool.Path]⟩
      else ⟨none, [install]⟩

/-! ### `main.go`: the checking phase (lines 39-76) -/

/-- Body of a checking goroutine up to its channel send (lines 44-62): the descriptor it
sends on `updatableToolsChan`, if any. -/
def checkWorker (env : Env) (exe : GoString) : Except Panic (Option Tool) :=
  match GetToolInfo env exe with
  | Except.error e => Except.error e
  | Except.ok none => Except.ok none
  | Except.ok (some toolInfo) =>
    let r := CheckForUpdate env toolInfo
    match r.err with
    | some _ => Except.ok none
    | none => if r.tool.IsUpdatable then Except.ok (some r.tool) else Except.ok none

/-- State of one checking goroutine. -/
inductive Goroutine where
  /-- Launched by `go func(exe string)`, body not yet run. -/
  | launched (exe : GoString)
  /-- Blocked in `updatableToolsChan <- toolInfo`. -/
  | sending (tool : Tool)
  /-- Returned, `wg.Done()` has run. -/
  | done
deriving DecidableEq

/-- State of the checking phase once every goroutine is launched. -/
structure CheckPhase where
  workers : List Goroutine
  /-- The slice `updatableTools` filled by the receiving loop. -/
  updatableTools : List Tool
  /-- Whether `close(updatableToolsChan)` has run. -/
  closed : Bool
  /-- Whether a goroutine panicked, which ends the process. -/
  panicked : Bool
deriving DecidableEq

/-- Lines 33-63 of `main.go`: `none` when the scan found no executable, where `main`
prints `No executables found.` and returns; otherwise the state after the launching
loop. -/
def initCheckPhase (executables : List GoString) : Option CheckPhase :=
  if executables.length = 0 then none
  else some ⟨executables.map Goroutine.launched, [], false, false⟩

/-- A choice of the scheduler. -/
inductive Action where
  /-- Goroutine `i` makes its next move: it runs its body up to the send, or its send
  meets the receive of the main loop, which appends to `updatableTools`. -/
  | advance (i : Nat)
  /-- The goroutine `wg.Wait(); close(updatableToolsChan)` closes the channel. -/
  | close
deriving DecidableEq

/-- Whether the wait-group counter is zero. -/
def allDone (ws : List Goroutine) : Bool := ws.all (fun w => w == Goroutine.done)

/-- One scheduler step; a choice that is not enabled leaves the state as it is. -/
def step (env : Env) (s : CheckPhase) : Action → CheckPhase
  | Action.advance i =>
    if s.closed || s.panicked then s
    else
      match s.workers.get? i with
      | some (Goroutine.launched exe) =>
        match checkWorker env exe with
        | Except.error _ => { s with panicked := true }
        | Except.ok (some t) => { s with workers := s.workers.set i (Goroutine.sending t) }
        | Except.ok none => { s with workers := s.workers.set i Goroutine.done }
      | some (Goroutine.sending t) =>
        { s with workers := s.workers.set i Goroutine.done,
                 updatableTools := s.updatableTools ++ [t] }
      | _ => s
  | Action.close =>
    if !s.panicked && allDone s.workers then { s with closed := true } else s

/-- The checking phase under a schedule. -/
def runSchedule (env : Env) (s : CheckPhase) (schedule : List Action) : CheckPhase :=
  schedule.foldl (step env) s

/-! ### `main.go`: confirmation and update (lines 76-99) -/

/-- What `main` does after the scan, in order. -/
inductive Event where
  /-- The line `No executables found.` -/
  | printNoExecutables
  /-- The line `Checking for updates...` -/
  | printChecking
  /-- The line `Found %d tools that can be updated.` -/
  | printFound (n : Nat)
  /-- The prompt `Do you want to update them all? (y/n): `. -/
  | printPrompt
  /-- The call `reader.ReadString` on standard input. -/
  | readLine
  /-- A goroutine calling `UpdateTool(t)` is launched (and waited for). -/
  | updateTool (t : Tool)
  /-- The line `All updates completed.` -/
  | printAllCompleted
  /-- The line `Update cancelled.` -/
  | printCancelled
deriving DecidableEq

/-- `reader.ReadString` with delimiter line feed, its error discarded: the input up to
and including the first line feed, or all of it when there is none. -/
def readStringLF : GoString → GoString
  | [] => []
  | c :: rest => if c.toNat = 10 then [c] else c :: readStringLF rest

/-- `strings.ToLower`. -/
def stringsToLower (env : Env) (s : GoString) : GoString := s.map env.unicodeToLower

/-- The condition of line 80 on the line that was read. -/
def isAffirmative (env : Env) (input : GoString) : Bool :=
  stringsTrimSpace (stringsToLower env input) = "y".toList

/-- Lines 76-99 of `main.go`, given the collected tools and the content of standard
input. -/
def confirmAndUpdate (env : Env) (updatableTools : List Tool) (stdin : GoString) :
    List Event :=
  Event.printFound updatableTools.length ::
    (if updatableTools.length > 0 then
      Event.printPrompt :: Event.readLine ::
        (if isAffirmative env (readStringLF stdin) then
          updatableTools.map Event.updateTool ++ [Event.printAllCompleted]
        else [Event.printCancelled])
    else [])

/-- What a finished run of `main` leaves behind. -/
structure MainRun where
  /-- The tools gathered in `updatableTools` (none when `main` returns before the checking
  phase). -/
  updatableTools : List Tool
  /-- What was printed, read and launched, in order. -/
  events : List Event
deriving DecidableEq

/-- Lines 33-99 of `main.go`, given the result of the scan, the choices of the scheduler
in the checking phase and the content of standard input; `none` when the schedule ends
before the channel is closed, that is, when the run is not over. -/
def mainAfterScan (env : Env) (executables : List GoString) (schedule : List Action)
    (stdin : GoString) : Option MainRun :=
  match initCheckPhase executables with
  | none => some ⟨[], [Event.printNoExecutables]⟩
  | some s0 =>
    if (runSchedule env s0 schedule).closed then
      some ⟨(runSchedule env s0 schedule).updatableTools,
        Event.printChecking ::
          confirmAndUpdate env (runSchedule env s0 schedule).updatableTools stdin⟩
    else none

/-! ### Derived views of the code, specification-side predicates and sample data -/

/-- The candidate of the next-major probe (the variable `nextMajorPath` of either branch). -/
def nextMajorPath (modulePath : GoString) : GoString :=
  match reFindStringSubmatch modulePath with
  | [_, basePath, num] => basePath ++ "/v".toList ++ formatInt (wrapInt (strconvAtoi num + 1))
  | _ => modulePath ++ "/v2".toList

/-- The path that is finally queried. -/
def finalQueryPath (env : Env) (tool : Tool) : GoString :=
  if env.goListM (nextMajorPath tool.ModulePath ++ atLatest) then
    nextMajorPath tool.ModulePath
  else tool.ModulePath

/-- The descriptor after lines 109-120. -/
def rewrittenTool (env : Env) (tool : Tool) : Tool :=
  if env.goListM (nextMajorPath tool.ModulePath ++ atLatest) = true ∧
      stringsHasPrefix tool.PackagePath tool.ModulePath = true then
    { tool with
      PackagePath :=
        stringsReplace1 tool.PackagePath tool.ModulePath (nextMajorPath tool.ModulePath) }
  else tool

/-- A world in which `example.com/tool/v4` exists and its latest version is `v4.0.0`,
while `example.com/tool` has no `/v2` and its latest version is `v1.2.0`. -/
def exampleEnv : Env where
  goVersionM := fun path =>
    if path = "/go/bin/x".toList then
      some ("/go/bin/x: go1.22.1\n\tpath\texample.com/tool/v3/cmd/x\n" ++
        "\tmod\texample.com/tool/v3\tv3.1.0\th1:abc=\n\tbuild\t-compiler=gc\n").toList
    else if path = "/go/bin/tool".toList then
      some "/go/bin/tool: go1.22.1\n\tpath\texample.com/tool\n\tmod\texample.com/tool\tv1.0.0\n".toList
    else if path = "/go/bin/stripped".toList then some "/go/bin/stripped: go1.22.1\n".toList
    else none
  goListM := fun ref => ref == "example.com/tool/v4@latest".toList
  goListMUJson := fun ref =>
    if ref = "example.com/tool/v4@latest".toList then
      some "\x7b\"Path\":\"example.com/tool/v4\",\"Version\":\"v4.0.0\"\x7d".toList
    else if ref = "example.com/tool@latest".toList then
      some "\x7b\"Path\":\"example.com/tool\",\"Version\":\"v1.2.0\"\x7d".toList
    else none
  jsonUnmarshalVersion := fun out =>
    if out = "\x7b\"Path\":\"example.com/tool/v4\",\"Version\":\"v4.0.0\"\x7d".toList then
      some "v4.0.0".toList
    else if out = "\x7b\"Path\":\"example.com/tool\",\"Version\":\"v1.2.0\"\x7d".toList then
      some "v1.2.0".toList
    else none
  goInstall := fun _ => true
  osRemove := fun _ => RemoveResult.notExist
  isWindows := false
  filepathBase := fun p => ((p.reverse.takeWhile (fun c => c != '/')).reverse)
  unicodeToLower := Char.toLower

/-- The descriptor of end-to-end scenario 2, with a command below the module root. -/
def toolV3 : Tool where
  Name := "x".toList
  Path := "/go/bin/x".toList
  PackagePath := "example.com/tool/v3/cmd/x".toList
  ModulePath := "example.com/tool/v3".toList
  CurrentVersion := "v3.1.0".toList
  LatestVersion := []
  IsUpdatable := false

/-- The descriptor of end-to-end scenario 1. -/
def toolV1 : Tool where
  Name := "tool".toList
  Path := "/go/bin/tool".toList
  PackagePath := "example.com/tool".toList
  ModulePath := "example.com/tool".toList
  CurrentVersion := "v1.0.0".toList
  LatestVersion := []
  IsUpdatable := false

/-- A descriptor whose module nobody serves: the query fails. -/
def toolUnknown : Tool where
  Name := "gone".toList
  Path := "/go/bin/gone".toList
  PackagePath := "example.com/gone".toList
  ModulePath := "example.com/gone".toList
  CurrentVersion := "v0.1.0".toList
  LatestVersion := []
  IsUpdatable := false

/-- Follows the specification's words: the identifier ends in a major-version suffix
`/vN`, where `N` is a decimal numeral without leading zero and `N ≥ 2`. -/
def hasMajorSuffix (m : GoString) : Bool :=
  let r := m.reverse
  let num := (r.takeWhile isDigit).reverse
  match r.dropWhile isDigit with
  | 'v' :: '/' :: _ =>
    match num with
    | d :: _ => d.toNat != 48 && decide (2 ≤ parseDigits num)
    | [] => false
  | _ => false

/-- A descriptor on major version 10. -/
def toolV10 : Tool where
  Name := "tool".toList
  Path := "/go/bin/tool".toList
  PackagePath := "example.com/tool/v10".toList
  ModulePath := "example.com/tool/v10".toList
  CurrentVersion := "v10.0.1".toList
  LatestVersion := []
  IsUpdatable := false

/-- Follows the specification's words: the line is a record whose first
whitespace-delimited field is `tag` and which has at least one value. -/
def isRecord (tag : GoString) (line : GoString) : Bool :=
  (stringsFields line).head? == some tag && decide (2 ≤ (stringsFields line).length)

/-- Follows the specification's words: among the lines after the first line of the trimmed
output there is a record with the tag `tag` and at least one value. -/
def hasRecord (tag : GoString) (output : GoString) : Bool :=
  ((stringsSplitLF (stringsTrimSpace output)).drop 1).any (isRecord tag)

/-- One iteration of the loop of `GetToolInfo`, without the bounds checks. -/
def scanLinePure (st : ScanState) (line : GoString) : ScanState :=
  match stringsFields line with
  | tag :: v :: rest =>
    if tag = "path".toList then { st with pkgPath := v }
    else if tag = "mod".toList then
      match rest with
      | w :: _ => { st with modPath := v, modVersion := w }
      | [] => { st with modPath := v }
    else st
  | _ => st

/-- A descriptor whose command name differs from the name of the installed file. -/
def toolRenamed : Tool where
  Name := "oldname".toList
  Path := "/go/bin/oldname".toList
  PackagePath := "example.com/tool/cmd/newname".toList
  ModulePath := "example.com/tool".toList
  CurrentVersion := "v1.0.0".toList
  LatestVersion := "v1.2.0".toList
  IsUpdatable := true

/-- Follows the specification's words: the descriptor a path contributes to the collection,
namely the descriptor after `CheckForUpdate` when `GetToolInfo` returns a descriptor,
`CheckForUpdate` returns no error and the descriptor is marked updatable afterwards. -/
def updatableDescriptor (env : Env) (exe : GoString) : Option Tool :=
  match GetToolInfo env exe with
  | Except.ok (some t) =>
    if (CheckForUpdate env t).err = none ∧ (CheckForUpdate env t).tool.IsUpdatable = true then
      some (CheckForUpdate env t).tool
    else none
  | _ => none

/-- What a goroutine will still send. -/
def contrib (env : Env) : Goroutine → List Tool
  | Goroutine.launched exe => (updatableDescriptor env exe).toList
  | Goroutine.sending t => [t]
  | Goroutine.done => []

/-- What the goroutines will still send. -/
def pending (env : Env) : List Goroutine → List Tool
  | [] => []
  | w :: ws => contrib env w ++ pending env ws

/-- Number of moves a goroutine has left, at most. -/
def weight : Goroutine → Nat
  | Goroutine.launched _ => 2
  | Goroutine.sending _ => 1
  | Goroutine.done => 0

/-- Number of moves the goroutines have left, at most. -/
def movesLeft : List Goroutine → Nat
  | [] => 0
  | w :: ws => weight w + movesLeft ws

/-- The tools collected so far together with those still to be sent. -/
def allTools (env : Env) (s : CheckPhase) : List Tool :=
  s.updatableTools ++ pending env s.workers

/-- Three executables: two Go tools with updates and one that is not a Go program. -/
def exampleExecutables : List GoString :=
  ["/go/bin/x".toList, "/go/bin/notgo".toList, "/go/bin/tool".toList]

/-- A schedule in which the third goroutine is served before the first. -/
def exampleSchedule : List Action :=
  [Action.advance 2, Action.advance 0, Action.advance 1, Action.close, Action.advance 2,
    Action.advance 0, Action.close]

/-- The descriptors `UpdateTool` is invoked on, in launching order. -/
def updateCalls : List Event → List Tool
  | [] => []
  | Event.updateTool t :: rest => t :: updateCalls rest
  | _ :: rest => updateCalls rest

/-! ## Theorems -/

/-! ### `CheckForUpdate` -/

lemma nextMajorPath_ne_nil (m : GoString) : nextMajorPath m ≠ [] := by
  unfold nextMajorPath
  split <;> simp

lemma probeNextMajor_eq (env : Env) (tool : Tool) :
    probeNextMajor env tool =
      (if env.goListM (nextMajorPath tool.ModulePath ++ atLatest) then
          nextMajorPath tool.ModulePath else [],
        [Cmd.goListM (nextMajorPath tool.ModulePath ++ atLatest)]) := by
  unfold probeNextMajor nextMajorPath
  split <;> (simp only []; split <;> simp_all)

lemma resolveQueryPath_probe (env : Env) (tool : Tool) :
    resolveQueryPath tool (probeNextMajor env tool).1 =
      (finalQueryPath env tool, rewrittenTool env tool) := by
  rw [probeNextMajor_eq]
  unfold resolveQueryPath finalQueryPath rewrittenTool
  have hne := nextMajorPath_ne_nil tool.ModulePath
  by_cases hp : env.goListM (nextMajorPath tool.ModulePath ++ atLatest) = true
  · by_cases hq : stringsHasPrefix tool.PackagePath tool.ModulePath = true <;> simp [hp, hq, hne]
  · simp [hp]

lemma CheckForUpdate_eq (env : Env) (tool : Tool) (h : tool.ModulePath ≠ []) :
    CheckForUpdate env tool =
      (let trace := [Cmd.goListM (nextMajorPath tool.ModulePath ++ atLatest),
          Cmd.goListMUJson (finalQueryPath env tool ++ atLatest)]
       match env.goListMUJson (finalQueryPath env tool ++ atLatest) with
       | none => ⟨some CheckError.queryFailed, rewrittenTool env tool, trace⟩
       | some out =>
         match env.jsonUnmarshalVersion out with
         | none => ⟨some CheckError.parseFailed, rewrittenTool env tool, trace⟩
         | some version =>
           if version ≠ [] ∧ (rewrittenTool env tool).CurrentVersion ≠ version then
             ⟨none, { rewrittenTool env tool with
                        LatestVersion := version, IsUpdatable := true }, trace⟩
           else ⟨none, rewrittenTool env tool, trace⟩) := by
  unfold CheckForUpdate
  rw [if_neg h]
  have h1 := resolveQueryPath_probe env tool
  have h2 := probeNextMajor_eq env tool
  rcases hp : probeNextMajor env tool with ⟨p0, probes⟩
  rw [hp] at h1 h2
  simp only [Prod.mk.injEq] at h2
  obtain ⟨-, rfl⟩ := h2
  simp only [h1, List.singleton_append]

lemma rewrittenTool_fields (env : Env) (tool : Tool) :
    (rewrittenTool env tool).CurrentVersion = tool.CurrentVersion ∧
    (rewrittenTool env tool).LatestVersion = tool.LatestVersion ∧
    (rewrittenTool env tool).IsUpdatable = tool.IsUpdatable ∧
    (rewrittenTool env tool).ModulePath = tool.ModulePath := by
  unfold rewrittenTool
  split <;> simp

/-- End-to-end scenario 1 of the specification. -/
theorem scenario1 :
    CheckForUpdate exampleEnv toolV1 =
      ⟨none, { toolV1 with LatestVersion := "v1.2.0".toList, IsUpdatable := true },
        [Cmd.goListM "example.com/tool/v2@latest".toList,
          Cmd.goListMUJson "example.com/tool@latest".toList]⟩ := by
  decide

/-- End-to-end scenario 2 of the specification. -/
theorem scenario2 :
    CheckForUpdate exampleEnv toolV3 =
      ⟨none, { toolV3 with PackagePath := "example.com/tool/v4/cmd/x".toList,
                           LatestVersion := "v4.0.0".toList, IsUpdatable := true },
        [Cmd.goListM "example.com/tool/v4@latest".toList,
          Cmd.goListMUJson "example.com/tool/v4@latest".toList]⟩ := by
  decide!

/-- C1: for a descriptor with a non-empty module identifier that is not updatable on entry,
when `CheckForUpdate` returns no error, the flag `IsUpdatable` afterwards is true exactly
when the version decoded from the output of the latest-version query is non-empty and
differs from `CurrentVersion`; and when the flag is set, `LatestVersion` is that version. -/
theorem C1_updatable_iff_version_differs (env : Env) (tool : Tool)
    (hmod : tool.ModulePath ≠ []) (hentry : tool.IsUpdatable = false)
    (hok : (CheckForUpdate env tool).err = none) :
    ∃ ref out version,
      (CheckForUpdate env tool).trace.getLast? = some (Cmd.goListMUJson ref) ∧
      env.goListMUJson ref = some out ∧
      env.jsonUnmarshalVersion out = some version ∧
      ((CheckForUpdate env tool).tool.IsUpdatable = true ↔
        version ≠ [] ∧ version ≠ tool.CurrentVersion) ∧
      ((CheckForUpdate env tool).tool.IsUpdatable = true →
        (CheckForUpdate env tool).tool.LatestVersion = version) := by
  obtain ⟨hcur, -, hupd, -⟩ := rewrittenTool_fields env tool
  rw [CheckForUpdate_eq env tool hmod] at hok ⊢
  simp only [] at hok ⊢
  refine ⟨finalQueryPath env tool ++ atLatest, ?_⟩
  cases hq : env.goListMUJson (finalQueryPath env tool ++ atLatest) with
  | none => simp [hq] at hok
  | some out =>
    cases hj : env.jsonUnmarshalVersion out with
    | none => simp [hq, hj] at hok
    | some version =>
      refine ⟨out, version, ?_, rfl, hj, ?_⟩
      · simp only [hj]; split <;> rfl
      · simp only [hj, hcur]
        by_cases hv : version ≠ [] ∧ tool.CurrentVersion ≠ version
        · rw [if_pos hv]
          exact ⟨⟨fun _ => ⟨hv.1, fun e => hv.2 e.symm⟩, fun _ => rfl⟩, fun _ => rfl⟩
        · rw [if_neg hv, hupd, hentry]
          refine ⟨⟨fun e => by simp at e, fun e => absurd ⟨e.1, fun e2 => e.2 e2.symm⟩ hv⟩,
            fun e => by simp at e⟩

/-- C1 at scenario 1. -/
theorem C1_updatable_iff_version_differs_witness :
    ∃ ref out version,
      (CheckForUpdate exampleEnv toolV1).trace.getLast? = some (Cmd.goListMUJson ref) ∧
      exampleEnv.goListMUJson ref = some out ∧
      exampleEnv.jsonUnmarshalVersion out = some version ∧
      ((CheckForUpdate exampleEnv toolV1).tool.IsUpdatable = true ↔
        version ≠ [] ∧ version ≠ toolV1.CurrentVersion) ∧
      ((CheckForUpdate exampleEnv toolV1).tool.IsUpdatable = true →
        (CheckForUpdate exampleEnv toolV1).tool.LatestVersion = version) :=
  C1_updatable_iff_version_differs exampleEnv toolV1 (by decide) (by decide) (by decide)

/-- C4: for a descriptor with a non-empty module identifier, `CheckForUpdate` runs exactly
two commands: the existence probe of some candidate, then the latest-version query.  The
query is on `<ModulePath>@latest` when the probe fails and on the probed candidate when it
succeeds; it is never skipped. -/
theorem C4_query_follows_probe (env : Env) (tool : Tool) (hmod : tool.ModulePath ≠ []) :
    ∃ cand,
      (env.goListM (cand ++ atLatest) = false →
        (CheckForUpdate env tool).trace =
          [Cmd.goListM (cand ++ atLatest), Cmd.goListMUJson (tool.ModulePath ++ atLatest)]) ∧
      (env.goListM (cand ++ atLatest) = true →
        (CheckForUpdate env tool).trace =
          [Cmd.goListM (cand ++ atLatest), Cmd.goListMUJson (cand ++ atLatest)]) := by
  have htrace : (CheckForUpdate env tool).trace =
      [Cmd.goListM (nextMajorPath tool.ModulePath ++ atLatest),
        Cmd.goListMUJson (finalQueryPath env tool ++ atLatest)] := by
    rw [CheckForUpdate_eq env tool hmod]
    simp only []
    split
    · rfl
    · split
      · rfl
      · split <;> rfl
  refine ⟨nextMajorPath tool.ModulePath, fun hp => ?_, fun hp => ?_⟩
  · rw [htrace]; simp [finalQueryPath, hp]
  · rw [htrace]; simp [finalQueryPath, hp]

/-- C4 at scenario 1, where the probe of `example.com/tool/v2` fails. -/
theorem C4_query_follows_probe_witness :
    toolV1.ModulePath ≠ [] ∧
    ∃ cand,
      (exampleEnv.goListM (cand ++ atLatest) = false →
        (CheckForUpdate exampleEnv toolV1).trace =
          [Cmd.goListM (cand ++ atLatest), Cmd.goListMUJson (toolV1.ModulePath ++ atLatest)]) ∧
      (exampleEnv.goListM (cand ++ atLatest) = true →
        (CheckForUpdate exampleEnv toolV1).trace =
          [Cmd.goListM (cand ++ atLatest), Cmd.goListMUJson (cand ++ atLatest)]) :=
  ⟨by decide, C4_query_follows_probe exampleEnv toolV1 (by decide)⟩

lemma stringsReplace1_of_prefix (s old new : GoString) (h : old <+: s) :
    stringsReplace1 s old new = new ++ s.drop old.length := by
  have hb : old.isPrefixOf s = true := List.isPrefixOf_iff_prefix.mpr h
  cases s <;> simp [stringsReplace1, hb]

/-- C5: for a descriptor with a non-empty module identifier, the package identifier after
`CheckForUpdate` is the probed candidate followed by the remainder of the original package
identifier after its module prefix when the probe succeeded and the package identifier
starts with the module identifier, and the original package identifier otherwise. -/
theorem C5_package_path_rewrite (env : Env) (tool : Tool) (hmod : tool.ModulePath ≠ []) :
    ∃ cand,
      (CheckForUpdate env tool).trace.head? = some (Cmd.goListM (cand ++ atLatest)) ∧
      (env.goListM (cand ++ atLatest) = true ∧ tool.ModulePath <+: tool.PackagePath →
        (CheckForUpdate env tool).tool.PackagePath =
          cand ++ tool.PackagePath.drop tool.ModulePath.length) ∧
      (¬(env.goListM (cand ++ atLatest) = true ∧ tool.ModulePath <+: tool.PackagePath) →
        (CheckForUpdate env tool).tool.PackagePath = tool.PackagePath) := by
  have hres : (CheckForUpdate env tool).trace.head? =
        some (Cmd.goListM (nextMajorPath tool.ModulePath ++ atLatest)) ∧
      (CheckForUpdate env tool).tool.PackagePath = (rewrittenTool env tool).PackagePath := by
    rw [CheckForUpdate_eq env tool hmod]
    simp only []
    split
    · exact ⟨rfl, rfl⟩
    · split
      · exact ⟨rfl, rfl⟩
      · split <;> exact ⟨rfl, rfl⟩
  refine ⟨nextMajorPath tool.ModulePath, hres.1, fun h => ?_, fun h => ?_⟩
  · rw [hres.2]
    have hb : stringsHasPrefix tool.PackagePath tool.ModulePath = true :=
      List.isPrefixOf_iff_prefix.mpr h.2
    unfold rewrittenTool
    rw [if_pos ⟨h.1, hb⟩]
    exact stringsReplace1_of_prefix _ _ _ h.2
  · rw [hres.2]
    unfold rewrittenTool
    rw [if_neg]
    rintro ⟨h1, h2⟩
    exact h ⟨h1, List.isPrefixOf_iff_prefix.mp h2⟩

/-- C5 at scenario 2: `example.com/tool/v3/cmd/x` becomes `example.com/tool/v4/cmd/x`. -/
theorem C5_package_path_rewrite_witness :
    toolV3.ModulePath ≠ [] ∧
    (CheckForUpdate exampleEnv toolV3).tool.PackagePath = "example.com/tool/v4/cmd/x".toList ∧
    ∃ cand,
      (CheckForUpdate exampleEnv toolV3).trace.head? = some (Cmd.goListM (cand ++ atLatest)) ∧
      (exampleEnv.goListM (cand ++ atLatest) = true ∧ toolV3.ModulePath <+: toolV3.PackagePath →
        (CheckForUpdate exampleEnv toolV3).tool.PackagePath =
          cand ++ toolV3.PackagePath.drop toolV3.ModulePath.length) ∧
      (¬(exampleEnv.goListM (cand ++ atLatest) = true ∧
            toolV3.ModulePath <+: toolV3.PackagePath) →
        (CheckForUpdate exampleEnv toolV3).tool.PackagePath = toolV3.PackagePath) :=
  ⟨by decide, by decide!, C5_package_path_rewrite exampleEnv toolV3 (by decide)⟩

/-- C8: for a descriptor with a non-empty module identifier, `CheckForUpdate` returns an
error exactly when the latest-version query command fails or its output cannot be decoded
(so the outcome of the existence probe alone never decides it), and whenever it returns an
error `LatestVersion` and `IsUpdatable` are as on entry. -/
theorem C8_error_iff_query_fails (env : Env) (tool : Tool) (hmod : tool.ModulePath ≠ []) :
    ∃ ref,
      (CheckForUpdate env tool).trace.getLast? = some (Cmd.goListMUJson ref) ∧
      ((CheckForUpdate env tool).err ≠ none ↔
        (env.goListMUJson ref = none ∨
          ∃ out, env.goListMUJson ref = some out ∧ env.jsonUnmarshalVersion out = none)) ∧
      ((CheckForUpdate env tool).err ≠ none →
        (CheckForUpdate env tool).tool.LatestVersion = tool.LatestVersion ∧
        (CheckForUpdate env tool).tool.IsUpdatable = tool.IsUpdatable) := by
  obtain ⟨-, hlat, hupd, -⟩ := rewrittenTool_fields env tool
  rw [CheckForUpdate_eq env tool hmod]
  simp only []
  refine ⟨finalQueryPath env tool ++ atLatest, ?_⟩
  cases hq : env.goListMUJson (finalQueryPath env tool ++ atLatest) with
  | none => simp [hlat, hupd]
  | some out =>
    cases hj : env.jsonUnmarshalVersion out with
    | none => simp [hj, hlat, hupd]
    | some version =>
      simp only [hj]
      split <;> simp [hj]

/-- C8 at a module whose query fails. -/
theorem C8_error_iff_query_fails_witness :
    toolUnknown.ModulePath ≠ [] ∧ (CheckForUpdate exampleEnv toolUnknown).err ≠ none ∧
    ∃ ref,
      (CheckForUpdate exampleEnv toolUnknown).trace.getLast? = some (Cmd.goListMUJson ref) ∧
      ((CheckForUpdate exampleEnv toolUnknown).err ≠ none ↔
        (exampleEnv.goListMUJson ref = none ∨
          ∃ out, exampleEnv.goListMUJson ref = some out ∧
            exampleEnv.jsonUnmarshalVersion out = none)) ∧
      ((CheckForUpdate exampleEnv toolUnknown).err ≠ none →
        (CheckForUpdate exampleEnv toolUnknown).tool.LatestVersion = toolUnknown.LatestVersion ∧
        (CheckForUpdate exampleEnv toolUnknown).tool.IsUpdatable = toolUnknown.IsUpdatable) :=
  ⟨by decide, by decide, C8_error_iff_query_fails exampleEnv toolUnknown (by decide)⟩

/-! ### The pattern and the next-major candidate -/

lemma foldl_digits_ge (t : GoString) (acc : Nat) :
    acc ≤ t.foldl (fun acc c => acc * 10 + (c.toNat - 48)) acc := by
  induction t generalizing acc with
  | nil => exact le_refl _
  | cons c t ih =>
    simp only [List.foldl_cons]
    exact le_trans (by omega) (ih _)

lemma parseDigits_cons_ge (d : Char) (t : GoString) :
    d.toNat - 48 ≤ parseDigits (d :: t) := by
  unfold parseDigits
  simp only [List.foldl_cons]
  exact le_trans (by omega) (foldl_digits_ge t _)

lemma reFindStringSubmatch_of_not_suffix (m : GoString) (h : hasMajorSuffix m = false) :
    reFindStringSubmatch m = [] := by
  unfold hasMajorSuffix at h
  unfold reFindStringSubmatch
  simp only [] at h ⊢
  split
  · rename_i baseRev heq
    rw [heq] at h
    simp only [] at h
    split
    · rename_i d t hnum
      rw [hnum] at h
      simp only [] at h
      have hge := parseDigits_cons_ge d t
      rw [if_neg]
      intro hc
      simp only [Bool.and_eq_true, isDigit2to9, decide_eq_true_eq] at hc
      simp only [Bool.and_eq_false_iff, bne_eq_false_iff_eq, decide_eq_false_iff_not] at h
      omega
    · rfl
  · rfl

lemma takeWhile_append_stop {α : Type} (p : α → Bool) (l : List α) (x : α) (r : List α)
    (hl : l.all p = true) (hx : p x = false) :
    (l ++ x :: r).takeWhile p = l ∧ (l ++ x :: r).dropWhile p = x :: r := by
  induction l with
  | nil => simp [List.takeWhile, List.dropWhile, hx]
  | cons a rest ih =>
    simp only [List.all_cons, Bool.and_eq_true] at hl
    simp [List.takeWhile, List.dropWhile, hl.1, ih hl.2]

/-- The pattern matches every text `base/vN` whose base has no line feed and whose numeral
starts with a digit from 2 to 9, and the groups are the base and the numeral. -/
theorem reFindStringSubmatch_of_form (base : GoString) (c : Char) (t : GoString)
    (hbase : base.all isDot = true) (hc : isDigit2to9 c = true) (ht : t.all isDigit = true) :
    reFindStringSubmatch (base ++ "/v".toList ++ c :: t) =
      [base ++ "/v".toList ++ c :: t, base, c :: t] := by
  have hcd : isDigit c = true := by
    simp only [isDigit2to9, isDigit, Bool.and_eq_true, decide_eq_true_eq] at hc ⊢
    omega
  have hrev : (base ++ "/v".toList ++ c :: t).reverse =
      (c :: t).reverse ++ 'v' :: ('/' :: base.reverse) := by
    simp
  have hall : (c :: t).reverse.all isDigit = true := by
    simp only [List.all_reverse, List.all_cons, hcd, ht, Bool.and_self]
  obtain ⟨h1, h2⟩ := takeWhile_append_stop isDigit (c :: t).reverse 'v' ('/' :: base.reverse)
    hall (by decide)
  unfold reFindStringSubmatch
  simp only [hrev, h1, h2, List.reverse_reverse, hc, List.all_reverse, hbase, Bool.and_self,
    if_true]

/-- When the pattern matches, the text has the form `base/vN` with a base without line feed
and a numeral that starts with a digit from 2 to 9. -/
theorem reFindStringSubmatch_form (s : GoString) (h : reFindStringSubmatch s ≠ []) :
    ∃ base c t, s = base ++ "/v".toList ++ c :: t ∧ base.all isDot = true ∧
      isDigit2to9 c = true ∧ t.all isDigit = true ∧
      reFindStringSubmatch s = [s, base, c :: t] := by
  unfold reFindStringSubmatch at h ⊢
  simp only [] at h ⊢
  have hsplit : s.reverse = s.reverse.takeWhile isDigit ++ s.reverse.dropWhile isDigit :=
    (List.takeWhile_append_dropWhile _ _).symm
  have hdig : ∀ x ∈ (s.reverse.takeWhile isDigit).reverse, isDigit x = true := by
    intro x hx
    exact List.mem_takeWhile_imp (List.mem_reverse.mp hx)
  rcases hdrop : s.reverse.dropWhile isDigit with _ | ⟨a, _ | ⟨b, baseRev⟩⟩
  · simp [hdrop] at h
  · rw [hdrop] at h
    exfalso
    revert h
    split
    · rename_i heq
      simp at heq
    · simp
  · rw [hdrop] at h hsplit
    by_cases hab : a = 'v' ∧ b = '/'
    · obtain ⟨rfl, rfl⟩ := hab
      simp only [] at h ⊢
      rcases hnum : (s.reverse.takeWhile isDigit).reverse with _ | ⟨c, t⟩
      · simp [hnum] at h
      · rw [hnum] at h hdig
        simp only [] at h ⊢
        by_cases hcond : (isDigit2to9 c && baseRev.all isDot) = true
        · rw [if_pos hcond]
          simp only [Bool.and_eq_true] at hcond
          refine ⟨baseRev.reverse, c, t, ?_, by simpa using hcond.2, hcond.1, ?_, rfl⟩
          · have := congrArg List.reverse hsplit
            simp only [List.reverse_reverse, List.reverse_append, List.reverse_cons, hnum] at this
            rw [this]
            simp
          · rw [List.all_eq_true]
            exact fun x hx => hdig x (List.mem_cons_of_mem _ hx)
        · rw [if_neg hcond] at h
          exact absurd rfl h
    · exfalso
      revert h
      split
      · rename_i heq
        simp only [List.cons.injEq] at heq
        exact absurd ⟨heq.1, heq.2.1⟩ hab
      · simp

lemma digitChar_toNat (d : Nat) (h : d < 10) : (Char.ofNat (48 + d)).toNat = 48 + d := by
  interval_cases d <;> rfl

lemma parseDigits_append_single (l : GoString) (c : Char) :
    parseDigits (l ++ [c]) = parseDigits l * 10 + (c.toNat - 48) := by
  simp [parseDigits, List.foldl_append]

lemma natDigits_all (fuel n : Nat) : (natDigits fuel n).all isDigit = true := by
  induction fuel generalizing n with
  | zero => rfl
  | succ f ih =>
    unfold natDigits
    split
    · rename_i hlt
      simp [isDigit, digitChar_toNat n hlt]
      omega
    · have hmod : n % 10 < 10 := Nat.mod_lt _ (by decide)
      simp [List.all_append, ih, isDigit, digitChar_toNat _ hmod]
      omega

lemma parseDigits_natDigits (fuel n : Nat) (h : n < fuel) :
    parseDigits (natDigits fuel n) = n := by
  induction fuel generalizing n with
  | zero => omega
  | succ f ih =>
    unfold natDigits
    split
    · rename_i hlt
      simp [parseDigits, digitChar_toNat n hlt]
    · have hmod : n % 10 < 10 := Nat.mod_lt _ (by decide)
      rw [parseDigits_append_single, ih (n / 10) (by omega), digitChar_toNat _ hmod]
      omega

/-- Reading back the decimal representation of a number gives the number. -/
theorem parseDigits_formatNat (n : Nat) : parseDigits (formatNat n) = n :=
  parseDigits_natDigits (n + 1) n (Nat.lt_succ_self n)

lemma strconvAtoi_digits (c : Char) (t : GoString) (hc : isDigit2to9 c = true)
    (ht : t.all isDigit = true) (hsmall : (parseDigits (c :: t) : Int) ≤ maxInt) :
    strconvAtoi (c :: t) = (parseDigits (c :: t) : Int) := by
  have hcd : isDigit c = true := by
    simp only [isDigit2to9, isDigit, Bool.and_eq_true, decide_eq_true_eq] at hc ⊢
    omega
  have hok : (!(c :: t).isEmpty && (c :: t).all isDigit) = true := by
    simp [hcd, ht]
  unfold strconvAtoi
  split
  · rename_i heq
    simp only [List.cons.injEq] at heq
    rw [heq.1] at hc
    exact absurd hc (by decide)
  · rename_i heq
    simp only [List.cons.injEq] at heq
    rw [heq.1] at hc
    exact absurd hc (by decide)
  · simp only [hok, if_true]
    rw [if_neg (not_lt.mpr hsmall)]

lemma wrapInt_of_small (i : Int) (h0 : 0 ≤ i) (h : i ≤ maxInt) : wrapInt i = i := by
  unfold wrapInt
  unfold maxInt at h
  omega

/-- What the code does on the suffixes its pattern accepts: for a module identifier
`base/vK` whose base has no line feed, whose numeral `K` starts with a digit from 2 to 9 and
with `K + 1` representable as `int`, the candidate that is probed is `base/v(K+1)`. -/
theorem probe_increments_matching_suffix (env : Env) (tool : Tool) (base : GoString)
    (K : Nat) (c : Char) (t : GoString)
    (hmod : tool.ModulePath = base ++ "/v".toList ++ formatNat K)
    (hbase : base.all isDot = true) (hlead : formatNat K = c :: t)
    (hc : isDigit2to9 c = true) (hK : (K : Int) + 1 ≤ maxInt) :
    ∃ ref,
      (CheckForUpdate env tool).trace =
        [Cmd.goListM (base ++ "/v".toList ++ formatNat (K + 1) ++ "@latest".toList),
          Cmd.goListMUJson ref] := by
  have hall : (c :: t).all isDigit = true := by
    rw [← hlead]
    exact natDigits_all _ _
  have ht : t.all isDigit = true := by
    simp only [List.all_cons, Bool.and_eq_true] at hall
    exact hall.2
  have hval : parseDigits (c :: t) = K := by
    rw [← hlead]
    exact parseDigits_formatNat K
  have hne : tool.ModulePath ≠ [] := by
    rw [hmod]
    simp
  have hnext : nextMajorPath tool.ModulePath = base ++ "/v".toList ++ formatNat (K + 1) := by
    unfold nextMajorPath
    rw [hmod, hlead, reFindStringSubmatch_of_form base c t hbase hc ht]
    simp only []
    rw [strconvAtoi_digits c t hc ht (by rw [hval]; omega), hval,
      wrapInt_of_small _ (by omega) hK]
    rfl
  refine ⟨finalQueryPath env tool ++ atLatest, ?_⟩
  rw [CheckForUpdate_eq env tool hne, hnext]
  simp only []
  split
  · rfl
  · split
    · rfl
    · split <;> rfl

/-- The increment at scenario 2 and at a two-digit major version. -/
theorem probe_increments_examples :
    (CheckForUpdate exampleEnv toolV3).trace.head? =
      some (Cmd.goListM "example.com/tool/v4@latest".toList) ∧
    nextMajorPath "example.com/tool/v29".toList = "example.com/tool/v30".toList ∧
    nextMajorPath "example.com/tool/v99".toList = "example.com/tool/v100".toList ∧
    nextMajorPath "example.com/tool/v19".toList = "example.com/tool/v19/v2".toList := by
  decide!

/-- Beyond the range of `int` the increment wraps around. -/
theorem probe_increment_overflow :
    nextMajorPath "m/v9223372036854775807".toList = "m/v-9223372036854775808".toList ∧
    nextMajorPath "m/v9223372036854775806".toList = "m/v9223372036854775807".toList ∧
    nextMajorPath "m/v99999999999999999999".toList = "m/v-9223372036854775808".toList := by
  decide!

lemma natDigits_head (fuel n : Nat) (h : n < fuel) (h1 : 1 ≤ n) :
    ∃ c t, natDigits fuel n = c :: t ∧ c.toNat ≠ 48 := by
  induction fuel generalizing n with
  | zero => omega
  | succ f ih =>
    unfold natDigits
    split
    · rename_i hlt
      exact ⟨_, [], rfl, by rw [digitChar_toNat n hlt]; omega⟩
    · obtain ⟨c, t, hct, hc⟩ := ih (n / 10) (by omega) (by omega)
      exact ⟨c, t ++ [Char.ofNat (48 + n % 10)], by rw [hct]; rfl, hc⟩

lemma parseDigits_pos (c : Char) (t : GoString) (hc : isDigit c = true) (h0 : c.toNat ≠ 48) :
    1 ≤ parseDigits (c :: t) := by
  have := parseDigits_cons_ge c t
  simp only [isDigit, Bool.and_eq_true, decide_eq_true_eq] at hc
  omega

lemma natDigits_parseDigits (c : Char) (t : GoString) (hc : isDigit c = true)
    (h0 : c.toNat ≠ 48) (ht : t.all isDigit = true) (fuel : Nat)
    (hf : parseDigits (c :: t) < fuel) :
    natDigits fuel (parseDigits (c :: t)) = c :: t := by
  induction t using List.reverseRecOn generalizing fuel with
  | nil =>
    simp only [isDigit, Bool.and_eq_true, decide_eq_true_eq] at hc
    have hval : parseDigits [c] = c.toNat - 48 := by simp [parseDigits]
    rw [hval] at hf ⊢
    cases fuel with
    | zero => omega
    | succ f =>
      unfold natDigits
      rw [if_pos (by omega)]
      have : 48 + (c.toNat - 48) = c.toNat := by omega
      rw [this, Char.ofNat_toNat]
  | append_singleton t2 x ih =>
    simp only [List.all_append, List.all_cons, List.all_nil, Bool.and_true,
      Bool.and_eq_true] at ht
    have hx := ht.2
    simp only [isDigit, Bool.and_eq_true, decide_eq_true_eq] at hx
    have hpos := parseDigits_pos c t2 hc h0
    have hval : parseDigits (c :: (t2 ++ [x])) = parseDigits (c :: t2) * 10 + (x.toNat - 48) := by
      rw [← List.cons_append, parseDigits_append_single]
    rw [hval] at hf ⊢
    cases fuel with
    | zero => omega
    | succ f =>
      unfold natDigits
      rw [if_neg (by omega)]
      have hdiv : (parseDigits (c :: t2) * 10 + (x.toNat - 48)) / 10 = parseDigits (c :: t2) := by
        omega
      have hmod : (parseDigits (c :: t2) * 10 + (x.toNat - 48)) % 10 = x.toNat - 48 := by
        omega
      rw [hdiv, hmod, ih ht.1 f (by omega)]
      have : 48 + (x.toNat - 48) = x.toNat := by omega
      rw [this, Char.ofNat_toNat]
      rfl

/-- The test `hasMajorSuffix` decides the form `base/vN` with `N ≥ 2` written in decimal. -/
theorem hasMajorSuffix_iff (m : GoString) :
    hasMajorSuffix m = true ↔ ∃ base N, 2 ≤ N ∧ m = base ++ "/v".toList ++ formatNat N := by
  constructor
  · intro h
    unfold hasMajorSuffix at h
    simp only [] at h
    have hsplit : m.reverse = m.reverse.takeWhile isDigit ++ m.reverse.dropWhile isDigit :=
      (List.takeWhile_append_dropWhile _ _).symm
    have hdig : ∀ x ∈ (m.reverse.takeWhile isDigit).reverse, isDigit x = true := by
      intro x hx
      exact List.mem_takeWhile_imp (List.mem_reverse.mp hx)
    split at h
    · rename_i baseRev hdrop
      rw [hdrop] at hsplit
      split at h
      · rename_i d t hnum
        rw [hnum] at hdig
        simp only [Bool.and_eq_true, bne_iff_ne, ne_eq, decide_eq_true_eq] at h
        have hd : isDigit d = true := hdig d (List.mem_cons_self _ _)
        have ht : t.all isDigit = true := by
          rw [List.all_eq_true]
          exact fun x hx => hdig x (List.mem_cons_of_mem _ hx)
        refine ⟨baseRev.reverse, parseDigits (d :: t), hnum ▸ h.2, ?_⟩
        have hfmt : formatNat (parseDigits (d :: t)) = d :: t :=
          natDigits_parseDigits d t hd h.1 ht _ (Nat.lt_succ_self _)
        rw [hfmt]
        have := congrArg List.reverse hsplit
        simp only [List.reverse_reverse, List.reverse_append, List.reverse_cons, hnum] at this
        rw [this]
        simp
      · simp at h
    · simp at h
  · rintro ⟨base, N, hN, rfl⟩
    obtain ⟨c, t, hct, hc⟩ := natDigits_head (N + 1) N (Nat.lt_succ_self N) (by omega)
    have hfmt : formatNat N = c :: t := hct
    have hall : (formatNat N).all isDigit = true := natDigits_all _ _
    have hrev : (base ++ "/v".toList ++ formatNat N).reverse =
        (formatNat N).reverse ++ 'v' :: ('/' :: base.reverse) := by
      simp
    obtain ⟨h1, h2⟩ := takeWhile_append_stop isDigit (formatNat N).reverse 'v'
      ('/' :: base.reverse) (by rw [List.all_reverse]; exact hall) (by decide)
    unfold hasMajorSuffix
    simp only [hrev, h1, h2, List.reverse_reverse]
    rw [hfmt]
    simp only [Bool.and_eq_true, bne_iff_ne, ne_eq, decide_eq_true_eq]
    refine ⟨hc, ?_⟩
    rw [← hfmt, parseDigits_formatNat]
    exact hN

/-- C3: for a descriptor whose non-empty module identifier does not end in a major-version
suffix `/vN` with `N ≥ 2`, the only candidate `CheckForUpdate` probes is the module
identifier followed by `/v2`, by the reference `<module>/v2@latest`. -/
theorem C3_probe_v2_without_suffix (env : Env) (tool : Tool) (hmod : tool.ModulePath ≠ [])
    (hsuffix : ¬∃ base N, 2 ≤ N ∧ tool.ModulePath = base ++ "/v".toList ++ formatNat N) :
    ∃ ref,
      (CheckForUpdate env tool).trace =
        [Cmd.goListM (tool.ModulePath ++ "/v2".toList ++ "@latest".toList),
          Cmd.goListMUJson ref] := by
  have hs : hasMajorSuffix tool.ModulePath = false := by
    cases h : hasMajorSuffix tool.ModulePath with
    | false => rfl
    | true => exact absurd ((hasMajorSuffix_iff _).mp h) hsuffix
  have hnext : nextMajorPath tool.ModulePath = tool.ModulePath ++ "/v2".toList := by
    unfold nextMajorPath
    rw [reFindStringSubmatch_of_not_suffix _ hs]
  refine ⟨finalQueryPath env tool ++ atLatest, ?_⟩
  rw [CheckForUpdate_eq env tool hmod, hnext]
  simp only []
  split
  · rfl
  · split
    · rfl
    · split <;> rfl

/-- C3 at scenario 1. -/
theorem C3_probe_v2_without_suffix_witness :
    toolV1.ModulePath ≠ [] ∧
    (¬∃ base N, 2 ≤ N ∧ toolV1.ModulePath = base ++ "/v".toList ++ formatNat N) ∧
    ∃ ref,
      (CheckForUpdate exampleEnv toolV1).trace =
        [Cmd.goListM (toolV1.ModulePath ++ "/v2".toList ++ "@latest".toList),
          Cmd.goListMUJson ref] :=
  ⟨by decide, fun h => absurd ((hasMajorSuffix_iff _).mpr h) (by decide),
    C3_probe_v2_without_suffix exampleEnv toolV1 (by decide)
      (fun h => absurd ((hasMajorSuffix_iff _).mpr h) (by decide))⟩

/-- C2 fails on the code: the module identifier `example.com/tool/v10` has the form
`base/vK` with `K = 10`, the pattern `[2-9]\d*` rejects its numeral because it starts with
`1`, and the candidate that is probed is `example.com/tool/v10/v2`, not
`example.com/tool/v11`. -/
theorem C2_v10_probes_v2_not_v11 :
    toolV10.ModulePath = "example.com/tool".toList ++ "/v".toList ++ formatNat 10 ∧
    reFindStringSubmatch toolV10.ModulePath = [] ∧
    (CheckForUpdate exampleEnv toolV10).trace =
      [Cmd.goListM "example.com/tool/v10/v2@latest".toList,
        Cmd.goListMUJson "example.com/tool/v10@latest".toList] ∧
    Cmd.goListM ("example.com/tool".toList ++ "/v".toList ++ formatNat (10 + 1) ++
      "@latest".toList) ∉ (CheckForUpdate exampleEnv toolV10).trace := by
  decide!

/-! ### `GetToolInfo` -/

lemma stringsSplitLF_ne_nil (s : GoString) : stringsSplitLF s ≠ [] := by
  induction s with
  | nil => simp [stringsSplitLF]
  | cons c rest ih =>
    unfold stringsSplitLF
    split
    · simp
    · split <;> simp

lemma fieldsAux_ne_nil (s cur : GoString) : ∀ f ∈ fieldsAux s cur, f ≠ [] := by
  induction s generalizing cur with
  | nil =>
    intro f hf
    unfold fieldsAux at hf
    split at hf
    · simp at hf
    · simp only [List.mem_singleton] at hf
      subst hf
      simpa using ‹¬cur = []›
  | cons c rest ih =>
    intro f hf
    unfold fieldsAux at hf
    split at hf
    · split at hf
      · exact ih _ f hf
      · rcases List.mem_cons.mp hf with h | h
        · subst h
          simpa using ‹¬cur = []›
        · exact ih _ f h
    · exact ih _ f hf

lemma stringsFields_ne_nil (s : GoString) : ∀ f ∈ stringsFields s, f ≠ [] :=
  fieldsAux_ne_nil s []

lemma scanLine_eq (st : ScanState) (line : GoString) :
    scanLine st line = Except.ok (scanLinePure st line) := by
  unfold scanLine scanLinePure
  rcases hf : stringsFields line with _ | ⟨tag, _ | ⟨v, _ | ⟨w, rest⟩⟩⟩
  · simp
  · simp
  · simp [indexAt]
    split_ifs <;> rfl
  · simp [indexAt]
    split_ifs <;> rfl

lemma scanLines_eq (st : ScanState) (lines : List GoString) :
    scanLines st lines = Except.ok (lines.foldl scanLinePure st) := by
  induction lines generalizing st with
  | nil => rfl
  | cons line rest ih => simp [scanLines, scanLine_eq, ih]

lemma scanLinePure_pkgPath (st : ScanState) (line : GoString) :
    (scanLinePure st line).pkgPath ≠ [] ↔
      st.pkgPath ≠ [] ∨ isRecord "path".toList line = true := by
  have hne := stringsFields_ne_nil line
  unfold scanLinePure isRecord
  rcases hf : stringsFields line with _ | ⟨tag, _ | ⟨v, rest⟩⟩
  · simp
  · simp
  · have hv : v ≠ [] := hne v (by simp [hf])
    by_cases h1 : tag = "path".toList
    · subst h1
      simp [hv]
    · have h1' : ¬tag = ['p', 'a', 't', 'h'] := h1
      by_cases h2 : tag = "mod".toList
      · subst h2
        cases rest <;> simp
      · have h2' : ¬tag = ['m', 'o', 'd'] := h2
        simp [h1', h2']

lemma scanLinePure_modPath (st : ScanState) (line : GoString) :
    (scanLinePure st line).modPath ≠ [] ↔
      st.modPath ≠ [] ∨ isRecord "mod".toList line = true := by
  have hne := stringsFields_ne_nil line
  unfold scanLinePure isRecord
  rcases hf : stringsFields line with _ | ⟨tag, _ | ⟨v, rest⟩⟩
  · simp
  · simp
  · have hv : v ≠ [] := hne v (by simp [hf])
    by_cases h1 : tag = "path".toList
    · subst h1
      simp
    · by_cases h2 : tag = "mod".toList
      · subst h2
        cases rest <;> simp [hv]
      · have h1' : ¬tag = ['p', 'a', 't', 'h'] := h1
        have h2' : ¬tag = ['m', 'o', 'd'] := h2
        simp [h1', h2']

lemma foldl_scan_pkgPath (lines : List GoString) (st : ScanState) :
    (lines.foldl scanLinePure st).pkgPath ≠ [] ↔
      st.pkgPath ≠ [] ∨ lines.any (isRecord "path".toList) = true := by
  induction lines generalizing st with
  | nil => simp
  | cons line rest ih =>
    rw [List.foldl_cons, ih, scanLinePure_pkgPath, List.any_cons, Bool.or_eq_true, or_assoc]

lemma foldl_scan_modPath (lines : List GoString) (st : ScanState) :
    (lines.foldl scanLinePure st).modPath ≠ [] ↔
      st.modPath ≠ [] ∨ lines.any (isRecord "mod".toList) = true := by
  induction lines generalizing st with
  | nil => simp
  | cons line rest ih =>
    rw [List.foldl_cons, ih, scanLinePure_modPath, List.any_cons, Bool.or_eq_true, or_assoc]

lemma GetToolInfo_eq (env : Env) (execPath output : GoString)
    (h : env.goVersionM execPath = some output) :
    GetToolInfo env execPath =
      (let st := ((stringsSplitLF (stringsTrimSpace output)).drop 1).foldl scanLinePure
          ⟨[], [], []⟩
       if st.pkgPath = [] ∨ st.modPath = [] then Except.ok none
       else
         Except.ok (some
           { Name := env.filepathBase execPath
             Path := execPath
             PackagePath := st.pkgPath
             ModulePath := st.modPath
             CurrentVersion := st.modVersion
             LatestVersion := []
             IsUpdatable := false })) := by
  unfold GetToolInfo
  have hlen : 1 ≤ (stringsSplitLF (stringsTrimSpace output)).length :=
    List.length_pos.mpr (stringsSplitLF_ne_nil _)
  simp only [h, sliceFrom, if_pos hlen, scanLines_eq]

lemma hasRecord_eq (tag output : GoString) :
    hasRecord tag output =
      ((stringsSplitLF (stringsTrimSpace output)).drop 1).any (isRecord tag) := rfl

/-- C6: `GetToolInfo` never indexes out of range; it returns nil when the build-info query
fails; on a successful query with output `output` it returns a descriptor exactly when the
lines after the first line of the trimmed output hold a `path` record with a value and a
`mod` record with a value, and nil otherwise; every descriptor it returns has non-empty
`PackagePath` and `ModulePath`, empty `LatestVersion` and `IsUpdatable` false. -/
theorem C6_descriptor_iff_path_and_mod (env : Env) (execPath : GoString) :
    (∀ e, GetToolInfo env execPath ≠ Except.error e) ∧
    (env.goVersionM execPath = none → GetToolInfo env execPath = Except.ok none) ∧
    (∀ output, env.goVersionM execPath = some output →
      ((∃ t, GetToolInfo env execPath = Except.ok (some t)) ↔
        (hasRecord "path".toList output = true ∧ hasRecord "mod".toList output = true)) ∧
      (¬(hasRecord "path".toList output = true ∧ hasRecord "mod".toList output = true) →
        GetToolInfo env execPath = Except.ok none)) ∧
    (∀ t, GetToolInfo env execPath = Except.ok (some t) →
      t.PackagePath ≠ [] ∧ t.ModulePath ≠ [] ∧ t.LatestVersion = [] ∧
        t.IsUpdatable = false) := by
  cases hq : env.goVersionM execPath with
  | none =>
    have hnil : GetToolInfo env execPath = Except.ok none := by
      unfold GetToolInfo
      simp only [hq]
    refine ⟨fun e => by simp [hnil], fun _ => hnil, fun output ho => by simp at ho,
      fun t ht => by simp [hnil] at ht⟩
  | some output =>
    have heq := GetToolInfo_eq env execPath output hq
    simp only [] at heq
    have hp := foldl_scan_pkgPath ((stringsSplitLF (stringsTrimSpace output)).drop 1) ⟨[], [], []⟩
    have hm := foldl_scan_modPath ((stringsSplitLF (stringsTrimSpace output)).drop 1) ⟨[], [], []⟩
    simp only [ne_eq, not_true_eq_false, false_or, ← hasRecord_eq] at hp hm
    by_cases hc : (((stringsSplitLF (stringsTrimSpace output)).drop 1).foldl scanLinePure
        ⟨[], [], []⟩).pkgPath = [] ∨
      (((stringsSplitLF (stringsTrimSpace output)).drop 1).foldl scanLinePure
        ⟨[], [], []⟩).modPath = []
    · rw [if_pos hc] at heq
      have hnot : ¬(hasRecord "path".toList output = true ∧
          hasRecord "mod".toList output = true) := by
        rw [← hp, ← hm]
        tauto
      refine ⟨fun e => by simp [heq], fun h => by simp at h, fun o ho => ?_,
        fun t ht => by simp [heq] at ht⟩
      have : o = output := by simpa using ho.symm
      subst this
      exact ⟨⟨fun ⟨t, ht⟩ => by simp [heq] at ht, fun h => absurd h hnot⟩, fun _ => heq⟩
    · rw [if_neg hc] at heq
      have hboth : hasRecord "path".toList output = true ∧
          hasRecord "mod".toList output = true := by
        rw [← hp, ← hm]
        tauto
      refine ⟨fun e => by simp [heq], fun h => by simp at h, fun o ho => ?_, fun t ht => ?_⟩
      · have : o = output := by simpa using ho.symm
        subst this
        exact ⟨⟨fun _ => hboth, fun _ => ⟨_, heq⟩⟩, fun h => absurd hboth h⟩
      · rw [heq] at ht
        simp only [Except.ok.injEq, Option.some.injEq] at ht
        subst ht
        simp only [not_or] at hc
        exact ⟨hc.1, hc.2, rfl, rfl⟩

/-- C6 on an executable built from `example.com/tool/v3/cmd/x`, on one without module
records, and on one that is not a Go program. -/
theorem C6_descriptor_examples :
    GetToolInfo exampleEnv "/go/bin/x".toList = Except.ok (some toolV3) ∧
    GetToolInfo exampleEnv "/go/bin/tool".toList = Except.ok (some toolV1) ∧
    GetToolInfo exampleEnv "/go/bin/stripped".toList = Except.ok none ∧
    GetToolInfo exampleEnv "/go/bin/notgo".toList = Except.ok none := by
  decide!

/-! ### `UpdateTool` -/

/-- C7: for a descriptor marked updatable, `UpdateTool` attempts a removal exactly when the
install command succeeded and the base name of the package identifier differs from the base
name of `Path` (a trailing `.exe` stripped from the latter only on Windows), and the file
it removes is the one at `Path`; when the install fails nothing is removed and an error is
returned; a removal that fails because the file does not exist gives success, and any other
removal failure gives an error. -/
theorem C7_removal_iff_names_differ (env : Env) (tool : Tool)
    (hupd : tool.IsUpdatable = true) :
    (∀ p, Cmd.osRemove p ∈ (UpdateTool env tool).trace ↔
      (p = tool.Path ∧ env.goInstall (tool.PackagePath ++ atLatest) = true ∧
        env.filepathBase tool.PackagePath ≠
          (if env.isWindows = true then
            stringsTrimSuffix (env.filepathBase tool.Path) exeSuffix
          else env.filepathBase tool.Path))) ∧
    (env.goInstall (tool.PackagePath ++ atLatest) = false →
      (UpdateTool env tool).err = some UpdateError.installFailed ∧
        (UpdateTool env tool).trace = [Cmd.goInstall (tool.PackagePath ++ atLatest)]) ∧
    (Cmd.osRemove tool.Path ∈ (UpdateTool env tool).trace →
      ((env.osRemove tool.Path = RemoveResult.notExist ∨
          env.osRemove tool.Path = RemoveResult.ok) → (UpdateTool env tool).err = none) ∧
      (env.osRemove tool.Path = RemoveResult.otherError →
        (UpdateTool env tool).err = some UpdateError.removeFailed)) := by
  unfold UpdateTool toolBase
  simp only [hupd, Bool.not_true, Bool.false_eq_true, if_false]
  by_cases hi : env.goInstall (tool.PackagePath ++ atLatest) = true
  · simp only [hi, Bool.not_true, Bool.false_eq_true, if_false]
    by_cases hb : env.filepathBase tool.PackagePath ≠
        (if env.isWindows = true then
          stringsTrimSuffix (env.filepathBase tool.Path) exeSuffix
        else env.filepathBase tool.Path)
    · rw [if_pos hb]
      cases hr : env.osRemove tool.Path <;> simp <;> exact hb
    · rw [if_neg hb]
      simp only [ne_eq, not_not] at hb
      simp [hb]
  · simp only [Bool.not_eq_true] at hi
    simp [hi]

/-- C7 on a renamed command: the old file is removed, and its absence is no error. -/
theorem C7_removal_iff_names_differ_witness :
    toolRenamed.IsUpdatable = true ∧
    UpdateTool exampleEnv toolRenamed =
      ⟨none, [Cmd.goInstall "example.com/tool/cmd/newname@latest".toList,
        Cmd.osRemove "/go/bin/oldname".toList]⟩ ∧
    ((∀ p, Cmd.osRemove p ∈ (UpdateTool exampleEnv toolRenamed).trace ↔
      (p = toolRenamed.Path ∧
        exampleEnv.goInstall (toolRenamed.PackagePath ++ atLatest) = true ∧
        exampleEnv.filepathBase toolRenamed.PackagePath ≠
          (if exampleEnv.isWindows = true then
            stringsTrimSuffix (exampleEnv.filepathBase toolRenamed.Path) exeSuffix
          else exampleEnv.filepathBase toolRenamed.Path))) ∧
    (exampleEnv.goInstall (toolRenamed.PackagePath ++ atLatest) = false →
      (UpdateTool exampleEnv toolRenamed).err = some UpdateError.installFailed ∧
        (UpdateTool exampleEnv toolRenamed).trace =
          [Cmd.goInstall (toolRenamed.PackagePath ++ atLatest)]) ∧
    (Cmd.osRemove toolRenamed.Path ∈ (UpdateTool exampleEnv toolRenamed).trace →
      ((exampleEnv.osRemove toolRenamed.Path = RemoveResult.notExist ∨
          exampleEnv.osRemove toolRenamed.Path = RemoveResult.ok) →
        (UpdateTool exampleEnv toolRenamed).err = none) ∧
      (exampleEnv.osRemove toolRenamed.Path = RemoveResult.otherError →
        (UpdateTool exampleEnv toolRenamed).err = some UpdateError.removeFailed))) :=
  ⟨by decide, by decide, C7_removal_iff_names_differ exampleEnv toolRenamed (by decide)⟩

/-! ### The checking phase -/

lemma GetToolInfo_ne_error (env : Env) (execPath : GoString) (e : Panic) :
    GetToolInfo env execPath ≠ Except.error e := by
  cases hq : env.goVersionM execPath with
  | none =>
    unfold GetToolInfo
    simp [hq]
  | some output =>
    rw [GetToolInfo_eq env execPath output hq]
    simp only []
    split <;> simp

lemma checkWorker_eq (env : Env) (exe : GoString) :
    checkWorker env exe = Except.ok (updatableDescriptor env exe) := by
  unfold checkWorker updatableDescriptor
  rcases hg : GetToolInfo env exe with e | _ | t
  · exact absurd hg (GetToolInfo_ne_error env exe e)
  · rfl
  · simp only []
    cases herr : (CheckForUpdate env t).err with
    | some c => simp
    | none =>
      cases hu : (CheckForUpdate env t).tool.IsUpdatable <;> simp

lemma workers_split {α : Type} (ws : List α) (i : Nat) (w : α) (h : ws.get? i = some w) :
    ∃ l1 l2, ws = l1 ++ w :: l2 ∧ ∀ w2, ws.set i w2 = l1 ++ w2 :: l2 := by
  induction ws generalizing i with
  | nil => simp at h
  | cons a rest ih =>
    cases i with
    | zero =>
      simp only [List.get?_cons_zero, Option.some.injEq] at h
      subst h
      exact ⟨[], rest, rfl, fun _ => rfl⟩
    | succ j =>
      simp only [List.get?_cons_succ] at h
      obtain ⟨l1, l2, h1, h2⟩ := ih j h
      refine ⟨a :: l1, l2, by simp [h1], fun w2 => ?_⟩
      simp [List.set_cons_succ, h2]

lemma pending_append (env : Env) (l1 l2 : List Goroutine) :
    pending env (l1 ++ l2) = pending env l1 ++ pending env l2 := by
  induction l1 with
  | nil => rfl
  | cons w ws ih => simp [pending, ih]

lemma movesLeft_append (l1 l2 : List Goroutine) :
    movesLeft (l1 ++ l2) = movesLeft l1 + movesLeft l2 := by
  induction l1 with
  | nil => simp [movesLeft]
  | cons w ws ih => simp [movesLeft, ih, Nat.add_assoc]

lemma pending_init (env : Env) (exes : List GoString) :
    pending env (exes.map Goroutine.launched) = exes.filterMap (updatableDescriptor env) := by
  induction exes with
  | nil => rfl
  | cons e rest ih =>
    simp only [List.map_cons, pending, contrib, ih, List.filterMap_cons]
    cases updatableDescriptor env e <;> simp

lemma pending_of_allDone (env : Env) (ws : List Goroutine) (h : allDone ws = true) :
    pending env ws = [] := by
  induction ws with
  | nil => rfl
  | cons w rest ih =>
    simp only [allDone, List.all_cons, Bool.and_eq_true, beq_iff_eq] at h
    have hrest : allDone rest = true := by simpa [allDone] using h.2
    simp [pending, h.1, contrib, ih hrest]

lemma step_allTools (env : Env) (s : CheckPhase) (a : Action) :
    (allTools env (step env s a)).Perm (allTools env s) := by
  cases a with
  | close =>
    simp only [step]
    split <;> exact List.Perm.refl _
  | advance i =>
    simp only [step]
    split
    · exact List.Perm.refl _
    · split
      · rename_i exe hget
        obtain ⟨l1, l2, h1, h2⟩ := workers_split _ _ _ hget
        rw [checkWorker_eq]
        cases hd : updatableDescriptor env exe with
        | none =>
          simp only [allTools, h2]
          rw [h1]
          simp [pending_append, pending, contrib, hd]
        | some t =>
          simp only [allTools, h2]
          rw [h1]
          simp [pending_append, pending, contrib, hd]
      · rename_i t hget
        obtain ⟨l1, l2, h1, h2⟩ := workers_split _ _ _ hget
        simp only [allTools, h2]
        rw [h1]
        simp only [pending_append, pending, contrib, List.nil_append, List.append_assoc,
          List.singleton_append]
        exact List.Perm.append_left _ List.perm_middle.symm
      · exact List.Perm.refl _

lemma step_closed (env : Env) (s : CheckPhase) (a : Action)
    (h : s.closed = true → allDone s.workers = true) :
    (step env s a).closed = true → allDone (step env s a).workers = true := by
  cases a with
  | close =>
    simp only [step]
    split
    · rename_i hc
      simp only [Bool.and_eq_true] at hc
      exact fun _ => hc.2
    · exact h
  | advance i =>
    simp only [step]
    by_cases hc : s.closed = true
    · simp only [hc, Bool.true_or, if_true]
      exact fun _ => h hc
    · simp only [Bool.not_eq_true] at hc
      intro hcl
      exfalso
      revert hcl
      split
      · simp [hc]
      · split
        · split <;> simp [hc]
        · simp [hc]
        · simp [hc]

lemma runSchedule_inv (env : Env) (schedule : List Action) (s : CheckPhase)
    (h : s.closed = true → allDone s.workers = true) :
    (allTools env (runSchedule env s schedule)).Perm (allTools env s) ∧
    ((runSchedule env s schedule).closed = true →
      allDone (runSchedule env s schedule).workers = true) := by
  induction schedule generalizing s with
  | nil => exact ⟨List.Perm.refl _, h⟩
  | cons a rest ih =>
    have h1 := ih (step env s a) (step_closed env s a h)
    simp only [runSchedule, List.foldl_cons] at h1 ⊢
    exact ⟨h1.1.trans (step_allTools env s a), h1.2⟩

lemma exists_not_done (ws : List Goroutine) (h : allDone ws = false) :
    ∃ i w, ws.get? i = some w ∧ w ≠ Goroutine.done := by
  induction ws with
  | nil => simp [allDone] at h
  | cons a rest ih =>
    by_cases ha : a = Goroutine.done
    · have hrest : allDone rest = false := by
        simpa [allDone, ha] using h
      obtain ⟨i, w, hi, hw⟩ := ih hrest
      exact ⟨i + 1, w, by simpa using hi, hw⟩
    · exact ⟨0, a, rfl, ha⟩

lemma advance_progress (env : Env) (s : CheckPhase) (i : Nat) (w : Goroutine)
    (hc : s.closed = false) (hp : s.panicked = false) (hget : s.workers.get? i = some w)
    (hw : w ≠ Goroutine.done) :
    (step env s (Action.advance i)).closed = false ∧
    (step env s (Action.advance i)).panicked = false ∧
    movesLeft (step env s (Action.advance i)).workers < movesLeft s.workers := by
  obtain ⟨l1, l2, h1, h2⟩ := workers_split _ _ _ hget
  simp only [step, hc, hp, Bool.or_self, Bool.false_eq_true, if_false, hget]
  cases w with
  | done => exact absurd rfl hw
  | launched exe =>
    simp only [checkWorker_eq]
    cases updatableDescriptor env exe with
    | none =>
      simp only [h2, hc, hp, true_and]
      rw [h1]
      simp [movesLeft_append, movesLeft, weight]
    | some t =>
      simp only [h2, hc, hp, true_and]
      rw [h1]
      simp [movesLeft_append, movesLeft, weight]
  | sending t =>
    simp only [h2, hc, hp, true_and]
    rw [h1]
    simp [movesLeft_append, movesLeft, weight]

lemma exists_closing_schedule (env : Env) (n : Nat) (s : CheckPhase)
    (hn : movesLeft s.workers ≤ n) (hc : s.closed = false) (hp : s.panicked = false) :
    ∃ schedule, (runSchedule env s schedule).closed = true := by
  induction n generalizing s with
  | zero =>
    by_cases hd : allDone s.workers = true
    · exact ⟨[Action.close], by simp [runSchedule, step, hp, hd]⟩
    · simp only [Bool.not_eq_true] at hd
      obtain ⟨i, w, hi, hw⟩ := exists_not_done _ hd
      have := (advance_progress env s i w hc hp hi hw).2.2
      omega
  | succ k ih =>
    by_cases hd : allDone s.workers = true
    · exact ⟨[Action.close], by simp [runSchedule, step, hp, hd]⟩
    · simp only [Bool.not_eq_true] at hd
      obtain ⟨i, w, hi, hw⟩ := exists_not_done _ hd
      obtain ⟨h1, h2, h3⟩ := advance_progress env s i w hc hp hi hw
      obtain ⟨rest, hrest⟩ := ih (step env s (Action.advance i)) (by omega) h1 h2
      exact ⟨Action.advance i :: rest, by simpa [runSchedule] using hrest⟩

lemma printFound_mem_confirmAndUpdate (env : Env) (tools : List Tool) (stdin : GoString)
    (n : Nat) (h : Event.printFound n ∈ confirmAndUpdate env tools stdin) :
    n = tools.length := by
  unfold confirmAndUpdate at h
  rcases List.mem_cons.mp h with h1 | h1
  · exact Event.printFound.inj h1
  · exfalso
    revert h1
    split
    · split <;> simp
    · simp

/-- C9: for every list of executable paths returned by the scan, `main` can run to its end,
and in every finished run the collected tools are, up to order, exactly the descriptors of
the paths for which `GetToolInfo` returns a descriptor, `CheckForUpdate` returns no error
and the descriptor is marked updatable afterwards, each path contributing on its own, and
the count that is reported is the size of this collection.  The count is reported whenever
the scan is not empty; on an empty scan `main` only prints `No executables found.` -/
theorem C9_collected_is_updatable_multiset (env : Env) (executables : List GoString)
    (stdin : GoString) :
    (∃ schedule, (mainAfterScan env executables schedule stdin).isSome = true) ∧
    ∀ schedule run, mainAfterScan env executables schedule stdin = some run →
      run.updatableTools.Perm (executables.filterMap (updatableDescriptor env)) ∧
      (∀ n, Event.printFound n ∈ run.events →
        n = (executables.filterMap (updatableDescriptor env)).length) ∧
      (executables ≠ [] →
        Event.printFound (executables.filterMap (updatableDescriptor env)).length ∈
          run.events) ∧
      (executables = [] → run.events = [Event.printNoExecutables]) := by
  cases executables with
  | nil =>
    refine ⟨⟨[], rfl⟩, ?_⟩
    intro schedule run hrun
    simp only [mainAfterScan, initCheckPhase, List.length_nil, if_true, Option.some.injEq] at hrun
    subst hrun
    simp
  | cons e rest =>
    have hinit : initCheckPhase (e :: rest) =
        some ⟨(e :: rest).map Goroutine.launched, [], false, false⟩ := by
      simp [initCheckPhase]
    constructor
    · obtain ⟨schedule, hs⟩ := exists_closing_schedule env _
        ⟨(e :: rest).map Goroutine.launched, [], false, false⟩ (le_refl _) rfl rfl
      exact ⟨schedule, by simp only [mainAfterScan, hinit, hs, if_true, Option.isSome_some]⟩
    · intro schedule run hrun
      simp only [mainAfterScan, hinit] at hrun
      by_cases hclosed : (runSchedule env
          ⟨(e :: rest).map Goroutine.launched, [], false, false⟩ schedule).closed = true
      · rw [if_pos hclosed] at hrun
        simp only [Option.some.injEq] at hrun
        subst hrun
        have hinv := runSchedule_inv env schedule
          ⟨(e :: rest).map Goroutine.launched, [], false, false⟩ (fun h => by simp at h)
        have hperm : ((runSchedule env
            ⟨(e :: rest).map Goroutine.launched, [], false, false⟩ schedule).updatableTools).Perm
            ((e :: rest).filterMap (updatableDescriptor env)) := by
          have h1 := hinv.1
          simp only [allTools, pending_of_allDone env _ (hinv.2 hclosed), List.append_nil,
            List.nil_append, pending_init] at h1
          exact h1
        refine ⟨hperm, fun n hn => ?_, fun _ => ?_, fun h => by simp at h⟩
        · rcases List.mem_cons.mp hn with h1 | h1
          · simp at h1
          · rw [printFound_mem_confirmAndUpdate env _ stdin n h1, hperm.length_eq]
        · rw [← hperm.length_eq]
          simp [confirmAndUpdate]
      · rw [if_neg hclosed] at hrun
        simp at hrun

/-- C9 on three executables, whose tools are collected in the order the schedule dictates,
and on an empty scan. -/
theorem C9_collected_example :
    mainAfterScan exampleEnv exampleExecutables exampleSchedule "n\n".toList =
      some ⟨[(CheckForUpdate exampleEnv toolV1).tool, (CheckForUpdate exampleEnv toolV3).tool],
        [Event.printChecking, Event.printFound 2, Event.printPrompt, Event.readLine,
          Event.printCancelled]⟩ ∧
    exampleExecutables.filterMap (updatableDescriptor exampleEnv) =
      [(CheckForUpdate exampleEnv toolV3).tool, (CheckForUpdate exampleEnv toolV1).tool] ∧
    mainAfterScan exampleEnv exampleExecutables [Action.advance 0] "n\n".toList = none ∧
    mainAfterScan exampleEnv [] exampleSchedule "y\n".toList =
      some ⟨[], [Event.printNoExecutables]⟩ := by
  decide!

/-! ### Confirmation and update -/

lemma updateCalls_map (tools : List Tool) (rest : List Event) :
    updateCalls (tools.map Event.updateTool ++ rest) = tools ++ updateCalls rest := by
  induction tools with
  | nil => rfl
  | cons t ts ih => simp [updateCalls, ih]

/-- C10: `UpdateTool` is invoked exactly once for each collected tool when at least one
tool was collected and the line read from standard input, lower-cased and trimmed of white
space, equals `y`, and is not invoked at all otherwise; with no collected tool there is no
prompt and nothing is read; with collected tools and any other answer the cancellation is
reported. -/
theorem C10_update_only_on_confirmation (env : Env) (tools : List Tool) (stdin : GoString) :
    (tools ≠ [] ∧
        stringsTrimSpace ((readStringLF stdin).map env.unicodeToLower) = "y".toList →
      updateCalls (confirmAndUpdate env tools stdin) = tools) ∧
    (¬(tools ≠ [] ∧
        stringsTrimSpace ((readStringLF stdin).map env.unicodeToLower) = "y".toList) →
      updateCalls (confirmAndUpdate env tools stdin) = []) ∧
    (tools = [] → confirmAndUpdate env tools stdin = [Event.printFound 0]) ∧
    (tools ≠ [] →
      stringsTrimSpace ((readStringLF stdin).map env.unicodeToLower) ≠ "y".toList →
      confirmAndUpdate env tools stdin =
        [Event.printFound tools.length, Event.printPrompt, Event.readLine,
          Event.printCancelled]) := by
  have haff : isAffirmative env (readStringLF stdin) = true ↔
      stringsTrimSpace ((readStringLF stdin).map env.unicodeToLower) = "y".toList := by
    simp [isAffirmative, stringsToLower]
  by_cases ht : tools = []
  · subst ht
    simp [confirmAndUpdate, updateCalls]
  · have hlen : tools.length > 0 := List.length_pos.mpr ht
    by_cases ha : isAffirmative env (readStringLF stdin) = true
    · have ha2 := haff.mp ha
      refine ⟨fun _ => ?_, fun h => absurd ⟨ht, ha2⟩ h, fun h => absurd h ht,
        fun _ h => absurd ha2 h⟩
      simp only [confirmAndUpdate, hlen, if_true, ha, updateCalls, updateCalls_map]
      simp
    · have ha2 : ¬stringsTrimSpace ((readStringLF stdin).map env.unicodeToLower) = "y".toList :=
        fun h => ha (haff.mpr h)
      refine ⟨fun h => absurd h.2 ha2, fun _ => ?_, fun h => absurd h ht, fun _ _ => ?_⟩
      · simp [confirmAndUpdate, hlen, ha, updateCalls]
      · simp [confirmAndUpdate, hlen, ha]

/-- C10 on two collected tools: the answer `Y` updates both, the answer `yes` cancels. -/
theorem C10_update_examples :
    updateCalls (confirmAndUpdate exampleEnv [toolV1, toolV3] " Y \nrest".toList) =
      [toolV1, toolV3] ∧
    confirmAndUpdate exampleEnv [toolV1, toolV3] "yes\n".toList =
      [Event.printFound 2, Event.printPrompt, Event.readLine, Event.printCancelled] ∧
    confirmAndUpdate exampleEnv [] "y\n".toList = [Event.printFound 0] := by
  decide!

end GoUpdater
